import Mathlib

/-!
Verification development for the Roast package registry worker
(`src/index.ts`).  The definitions below are a shallow embedding of the
TypeScript source: pure helpers become Lean functions, the Cloudflare KV /
R2 stores become association lists inside an explicit `Store` state, and
each HTTP handler becomes a function from request and state to a response
(status code) and a new state.  `new Date().toISOString()` is threaded as
an explicit `now : String` argument and the SHA-256 digest is abstracted
as a `hash` function parameter.
-/

namespace Registry

/-! ### JavaScript `parseInt(p, 10) || 0`, `split('.')` and `compareVersions` -/

/-- Numeric value of a list of decimal digit characters (most significant
first), as produced by JS `parseInt` after selecting the digit run. -/
def digitsVal (ds : List Char) : Nat :=
  ds.foldl (fun n c => 10 * n + (c.toNat - '0'.toNat)) 0

/-- Model of JS `parseInt(s, 10) || 0`: skip leading whitespace, accept an
optional sign, read the longest run of decimal digits; `NaN` (no digits)
is turned into `0` by the `|| 0`. -/
def jsParseIntOr0 (cs : List Char) : Int :=
  match cs.dropWhile Char.isWhitespace with
  | [] => 0
  | c :: rest =>
      if c = '-' then
        (if (rest.takeWhile Char.isDigit).isEmpty then 0
         else -(digitsVal (rest.takeWhile Char.isDigit) : Int))
      else if c = '+' then
        (if (rest.takeWhile Char.isDigit).isEmpty then 0
         else (digitsVal (rest.takeWhile Char.isDigit) : Int))
      else
        (if ((c :: rest).takeWhile Char.isDigit).isEmpty then 0
         else (digitsVal ((c :: rest).takeWhile Char.isDigit) : Int))

/-- Model of JS `String.prototype.split` with a one-character separator:
splits into (possibly empty) segments; the empty string yields `[[]]`. -/
def splitCh (sep : Char) : List Char → List (List Char)
  | [] => [[]]
  | c :: cs =>
      if c = sep then [] :: splitCh sep cs
      else
        match splitCh sep cs with
        | [] => [[c]]
        | g :: gs => (c :: g) :: gs

/-- The integer component list of a version string:
`a.split('.').map(p => parseInt(p, 10) || 0)`. -/
def versionParts (s : String) : List Int :=
  (splitCh '.' s.toList).map jsParseIntOr0

/-- Result of the trailing padded comparison loop when the first list has
been exhausted: each remaining component of the second list is compared
against `0`. -/
def negPart : List Int → Int
  | [] => 0
  | b :: bs => if b = 0 then negPart bs else -b

/-- The comparison loop of `compareVersions`: walk both component lists in
lockstep, padding the shorter one with `0`, and return the first nonzero
difference (`partA - partB`), or `0` when all components agree. -/
def cmpLoop : List Int → List Int → Int
  | [], bs => negPart bs
  | a :: as, [] => if a = 0 then cmpLoop as [] else a
  | a :: as, b :: bs => if a = b then cmpLoop as bs else a - b

/-- Function `compareVersions(a, b)` from `src/index.ts`: dot-split both strings,
parse each segment with `parseInt(p, 10) || 0`, and compare componentwise
with missing components defaulting to `0`.  The sign of the result is the
ordering (negative = LESS, zero = EQUAL, positive = GREATER). -/
def compareVersions (a b : String) : Int :=
  cmpLoop (versionParts a) (versionParts b)

/-! ### Data model: `PackageVersion`, `PackageMetadata`, `User`, the stores -/

/-- Interface `PackageVersion` from `src/index.ts` (the optional `download_url` is a
derived display field added only in `handleGetPackage` and is omitted). -/
structure PackageVersion where
  version : String
  published_at : String
  yanked : Bool
  checksum : String
  size : Nat
  signature : Option String
  publisher_fingerprint : Option String
deriving DecidableEq, Repr

/-- Interface `PackageMetadata` from `src/index.ts`. -/
structure PackageMetadata where
  name : String
  description : String
  authors : List String
  license : String
  repository : Option String
  homepage : Option String
  keywords : List String
  versions : List PackageVersion
  created_at : String
  updated_at : String
  downloads : Nat
deriving DecidableEq, Repr

/-- Interface `User` from `src/index.ts`. -/
structure User where
  id : String
  email : String
  name : String
  created_at : String
  packages : List String
deriving DecidableEq, Repr

/-- An R2 object stored in the `TARBALLS` bucket: the raw bytes plus the
`customMetadata` written by `handlePublishPackage`. -/
structure Blob where
  bytes : List Nat
  checksum : String
  publisher : String
  published_at : String
deriving DecidableEq, Repr

/-- Key-value lookup (first binding wins), modelling `KVNamespace.get` /
`R2Bucket.get`. -/
def kvGet (kv : List (String × α)) (k : String) : Option α :=
  match kv.find? (fun p => p.1 = k) with
  | some p => some p.2
  | none => none

/-- Key-value write, modelling `KVNamespace.put` / `R2Bucket.put`: replaces
the binding when the key is present, appends it otherwise. -/
def kvPut (kv : List (String × α)) (k : String) (v : α) : List (String × α) :=
  match kv with
  | [] => [(k, v)]
  | p :: rest => if p.1 = k then (k, v) :: rest else p :: kvPut rest k v

/-- The worker's whole observable state: the `ADMIN_TOKEN` secret, the
`PACKAGES`, `USERS` and `TOKENS` KV namespaces, and the `TARBALLS` R2
bucket. -/
structure Store where
  adminToken : Option String
  packages : List (String × PackageMetadata)
  users : List (String × User)
  tokens : List (String × String)
  tarballs : List (String × Blob)
deriving DecidableEq, Repr

/-- A response, reduced to the HTTP status code the handler returns. -/
structure Resp where
  status : Nat
deriving DecidableEq, Repr

/-! ### Authentication -/

/-- Function `verifyToken` from `src/index.ts`: the empty token is rejected, the
admin secret resolves to the synthetic `admin` user, any other token is
looked up in `TOKENS` and then `USERS`. -/
def verifyToken (token : String) (now : String) (env : Store) : Option User :=
  if token = "" then none
  else if env.adminToken ≠ none ∧ env.adminToken = some token then
    some { id := "admin", email := "admin@roast-lang.org", name := "Admin",
           created_at := now, packages := [] }
  else
    match kvGet env.tokens token with
    | none => none
    | some userId => kvGet env.users userId

/-- The `Authorization: Bearer <token>` extraction shared by the publish
and yank handlers: `authHeader?.startsWith('Bearer ')` then `slice(7)`. -/
def bearerToken (authHeader : Option String) : Option String :=
  match authHeader with
  | none => none
  | some h =>
      if "Bearer ".toList.isPrefixOf h.toList then
        some (String.mk (h.toList.drop 7))
      else none

/-! ### Validation -/

/-- The package-name rule `^[a-z][a-z0-9_-]*$`. -/
def validName (s : String) : Bool :=
  match s.toList with
  | [] => false
  | c :: cs =>
      c.isLower && cs.all (fun d => d.isLower || d.isDigit || d = '_' || d = '-')

/-- One or more decimal digits. -/
def digitRun (cs : List Char) : Bool :=
  !cs.isEmpty && cs.all Char.isDigit

/-- A pre-release suffix body: one or more characters from `[a-zA-Z0-9.]`. -/
def preBody (cs : List Char) : Bool :=
  !cs.isEmpty && cs.all (fun c => c.isAlpha || c.isDigit || c = '.')

/-- The version rule `^\d+\.\d+\.\d+(-[a-zA-Z0-9.]+)?$`: split the string
at the first `-`; the head must be `digits.digits.digits` and the optional
tail a nonempty alnum-or-dot run. -/
def validVersion (s : String) : Bool :=
  let cs := s.toList
  let core := cs.takeWhile (fun c => c ≠ '-')
  let rest := cs.dropWhile (fun c => c ≠ '-')
  let coreOk :=
    match splitCh '.' core with
    | [ma, mi, pa] => digitRun ma && digitRun mi && digitRun pa
    | _ => false
  coreOk &&
    (match rest with
     | [] => true
     | _ :: tail => preBody tail)

/-! ### `Array.prototype.sort` model -/

/-- Stable insertion of `a` into `l`: `a` stays after every element `b`
with `le b a` (so elements comparing equal keep their original order, as
`Array.prototype.sort` guarantees). -/
def insertStable (le : α → α → Bool) (a : α) : List α → List α
  | [] => [a]
  | b :: bs => if le b a then b :: insertStable le a bs else a :: b :: bs

/-- Model of JS `Array.prototype.sort(cmp)`: a stable sort placing `x`
before `y` whenever `cmp(x, y) < 0`.  For a comparator inducing a total
preorder the stable sorted permutation is unique, so any correct engine
implementation agrees with this one. -/
def jsSortBy (le : α → α → Bool) : List α → List α
  | [] => []
  | a :: as => insertStable le a (jsSortBy le as)

/-- The sort call of `handlePublishPackage`:
`versions.sort((a, b) => compareVersions(b.version, a.version))`,
i.e. descending by `compareVersions`. -/
def sortVersions (vs : List PackageVersion) : List PackageVersion :=
  jsSortBy (fun a b => compareVersions b.version a.version ≤ 0) vs

/-! ### Publish handler -/

/-- The package-creation default record built by `handlePublishPackage`
when `PACKAGES` has no entry for the name. -/
def freshMetadata (nm desc author now : String) : PackageMetadata :=
  { name := nm, description := desc, authors := [author], license := "MIT",
    repository := none, homepage := none, keywords := [],
    versions := [], created_at := now, updated_at := now, downloads := 0 }

/-- The successful metadata mutation of `handlePublishPackage`: push the
new version record, re-sort descending, refresh `updated_at`. -/
def insertVersion (now : String) (nv : PackageVersion) (m : PackageMetadata) :
    PackageMetadata :=
  { m with versions := sortVersions (m.versions ++ [nv]), updated_at := now }

/-- The store-level publish decision (lines 270-309 of `src/index.ts`):
duplicate version strings are rejected with `409`, otherwise the version
is inserted, creating the package record first when it does not exist. -/
def applyPublish (now nm desc author : String) (nv : PackageVersion) :
    Option PackageMetadata → Except Resp PackageMetadata
  | some m =>
      if m.versions.any (fun v => v.version = nv.version) then .error ⟨409⟩
      else .ok (insertVersion now nv m)
  | none => .ok (insertVersion now nv (freshMetadata nm desc author now))

/-- A publish request: the `Authorization` header, the raw body bytes and
the `X-Package-*` headers (absent headers are `none`). -/
structure PublishReq where
  authHeader : Option String
  body : List Nat
  nameHeader : Option String
  versionHeader : Option String
  descriptionHeader : Option String
  signatureHeader : Option String
  fingerprintHeader : Option String
deriving DecidableEq, Repr

/-- Everything `handlePublishPackage` has computed by the time all reads
and checks are done and only the three writes remain. -/
structure PendingPublish where
  nm : String
  ver : String
  body : List Nat
  checksum : String
  user : User
  meta : PackageMetadata
  published_at : String
deriving DecidableEq, Repr

/-- JS falsiness of an optional header string (`null` or `""`). -/
def headerFalsy (h : Option String) : Bool :=
  match h with
  | none => true
  | some s => s = ""

/-- Behaviour of `x || undefined` on an optional header: the empty string collapses to
`none`. -/
def orUndefined (h : Option String) : Option String :=
  match h with
  | none => none
  | some s => if s = "" then none else some s

/-- The `newVersion` record `handlePublishPackage` builds for a request:
checksum of the body, `size = tarball.byteLength`, `yanked = false`,
signature and fingerprint stored verbatim (`|| undefined`). -/
def mkNewVersion (hash : List Nat → String) (now : String)
    (req : PublishReq) : PackageVersion :=
  { version := req.versionHeader.getD "", published_at := now,
    yanked := false, checksum := hash req.body, size := req.body.length,
    signature := orUndefined req.signatureHeader,
    publisher_fingerprint := orUndefined req.fingerprintHeader }

/-- The read half of `handlePublishPackage` (everything before the first
`await ...put`): authentication, body and header validation, checksum,
the `PACKAGES` read and the duplicate-version check, and construction of
the metadata record to be written. -/
def publishRead (hash : List Nat → String) (now : String)
    (req : PublishReq) (env : Store) : Except Resp PendingPublish :=
  match bearerToken req.authHeader with
  | none => .error ⟨401⟩
  | some token =>
    match verifyToken token now env with
    | none => .error ⟨401⟩
    | some user =>
      if req.body.length = 0 then .error ⟨400⟩
      else if headerFalsy req.nameHeader || headerFalsy req.versionHeader then
        .error ⟨400⟩
      else if !validName (req.nameHeader.getD "") then .error ⟨400⟩
      else if !validVersion (req.versionHeader.getD "") then .error ⟨400⟩
      else
        match applyPublish now (req.nameHeader.getD "")
            ((orUndefined req.descriptionHeader).getD "") user.name
            (mkNewVersion hash now req)
            (kvGet env.packages ("pkg:" ++ req.nameHeader.getD "")) with
        | .error r => .error r
        | .ok meta =>
            .ok { nm := req.nameHeader.getD "",
                  ver := req.versionHeader.getD "",
                  body := req.body, checksum := hash req.body, user := user,
                  meta := meta, published_at := now }

/-- The write half of `handlePublishPackage`: the R2 tarball put, the
`PACKAGES` metadata put, and the `USERS` ownership update for a
first-time publisher; responds `201`. -/
def publishWrite (p : PendingPublish) (env : Store) : Resp × Store :=
  let env1 := { env with
    tarballs := kvPut env.tarballs (p.nm ++ "/" ++ p.ver ++ ".tar.gz")
      { bytes := p.body, checksum := p.checksum, publisher := p.user.id,
        published_at := p.published_at } }
  let env2 := { env1 with
    packages := kvPut env1.packages ("pkg:" ++ p.nm) p.meta }
  let env3 :=
    if p.user.packages.contains p.nm then env2
    else { env2 with
      users := kvPut env2.users p.user.id
        { p.user with packages := p.user.packages ++ [p.nm] } }
  (⟨201⟩, env3)

/-- Handler `handlePublishPackage` from `src/index.ts`: the read half followed,
when it succeeds, by the write half. -/
def handlePublishPackage (hash : List Nat → String) (now : String)
    (req : PublishReq) (env : Store) : Resp × Store :=
  match publishRead hash now req env with
  | .error r => (r, env)
  | .ok p => publishWrite p env

/-! ### Download, yank, list, search handlers -/

/-- Handler `handleDownloadPackage` from `src/index.ts` (read-only): `404` for an
unknown package, version or tarball, `410` for a yanked version, `200`
with the bytes otherwise. -/
def handleDownloadPackage (nm ver : String) (env : Store) : Resp :=
  match kvGet env.packages ("pkg:" ++ nm) with
  | none => ⟨404⟩
  | some m =>
    match m.versions.find? (fun v => v.version = ver) with
    | none => ⟨404⟩
    | some vi =>
      if vi.yanked then ⟨410⟩
      else
        match kvGet env.tarballs (nm ++ "/" ++ ver ++ ".tar.gz") with
        | none => ⟨404⟩
        | some _ => ⟨200⟩

/-- The in-place `versionInfo.yanked = yank` mutation: only the first
version record whose string matches (the one `find` returned) is
updated. -/
def setYankedFirst (ver : String) (yank : Bool) :
    List PackageVersion → List PackageVersion
  | [] => []
  | v :: vs =>
      if v.version = ver then { v with yanked := yank } :: vs
      else v :: setYankedFirst ver yank vs

/-- Handler `handleYankVersion` from `src/index.ts`: authenticate, look up the
package and version, check ownership (`admin` bypasses), set the yanked
flag, refresh `updated_at`, write back. -/
def handleYankVersion (nm ver : String) (yank : Bool)
    (authHeader : Option String) (now : String) (env : Store) :
    Resp × Store :=
  match bearerToken authHeader with
  | none => (⟨401⟩, env)
  | some token =>
    match verifyToken token now env with
    | none => (⟨401⟩, env)
    | some user =>
      match kvGet env.packages ("pkg:" ++ nm) with
      | none => (⟨404⟩, env)
      | some m =>
        match m.versions.find? (fun v => v.version = ver) with
        | none => (⟨404⟩, env)
        | some _ =>
          if user.id ≠ "admin" ∧ ¬ user.packages.contains nm then
            (⟨403⟩, env)
          else
            let m' := { m with versions := setYankedFirst ver yank m.versions,
                               updated_at := now }
            (⟨200⟩, { env with packages := kvPut env.packages ("pkg:" ++ nm) m' })

/-- The "latest" resolution used by `handleListPackages` and the home
page: `metadata.versions.find(v => !v.yanked)` — the first (hence
highest-sorted) non-yanked version. -/
def latestOf (m : PackageMetadata) : Option PackageVersion :=
  m.versions.find? (fun v => !v.yanked)

/-- A row of the `handleListPackages` response. -/
structure ListEntry where
  name : String
  description : String
  latest : String
deriving DecidableEq, Repr

/-- Handler `handleListPackages` from `src/index.ts`: one row per stored package,
with `latest` the first non-yanked version or `"none"`. -/
def handleListPackages (env : Store) : List ListEntry :=
  env.packages.map (fun p =>
    { name := p.2.name, description := p.2.description,
      latest := ((latestOf p.2).map (fun v => v.version)).getD "none" })

/-- JS `a.includes(b)` on character lists: `b` occurs as a contiguous
substring of `a` (the empty needle always matches). -/
def listIncludes (hay needle : List Char) : Bool :=
  needle.isPrefixOf hay ||
    match hay with
    | [] => false
    | _ :: t => listIncludes t needle

/-- Model of `hay.toLowerCase().includes(needle.toLowerCase())`. -/
def lowerIncludes (hay needle : String) : Bool :=
  listIncludes (hay.toList.map Char.toLower) (needle.toList.map Char.toLower)

/-- The match predicate of `handleSearchPackages`: the lowercased query is
a substring of the lowercased name, description, or some keyword. -/
def matchesQuery (q : String) (m : PackageMetadata) : Bool :=
  lowerIncludes m.name q || lowerIncludes m.description q ||
    m.keywords.any (fun k => lowerIncludes k q)

/-- Handler `handleSearchPackages` from `src/index.ts`: every stored record that
satisfies `matchesQuery`, in store order. -/
def handleSearchPackages (q : String) (env : Store) : List PackageMetadata :=
  (env.packages.map (fun p => p.2)).filter (matchesQuery q)

/-! ### Derived notions used by the claims -/

/-- The (major, minor, patch) triple as the comparison loop sees it: the
first three parsed components, missing ones defaulting to `0`. -/
def versionTriple (s : String) : Int × Int × Int :=
  ((versionParts s).getD 0 0, (versionParts s).getD 1 0, (versionParts s).getD 2 0)

/-- Strict lexicographic order on (major, minor, patch) triples. -/
def tripleLt (a b : Int × Int × Int) : Prop :=
  a.1 < b.1 ∨ (a.1 = b.1 ∧ (a.2.1 < b.2.1 ∨ (a.2.1 = b.2.1 ∧ a.2.2 < b.2.2)))

instance (a b : Int × Int × Int) : Decidable (tripleLt a b) := by
  unfold tripleLt
  infer_instance

/-- A sequence of store-level publishes of the same package: apply
`applyPublish` (the handler's metadata mutation) once per `(now, record)`
input, stopping at the first rejection. -/
def runPublishes (nm desc author : String) :
    List (String × PackageVersion) → Option PackageMetadata →
      Except Resp (Option PackageMetadata)
  | [], acc => .ok acc
  | (now, nv) :: rest, acc =>
      match applyPublish now nm desc author nv acc with
      | .error r => .error r
      | .ok m => runPublishes nm desc author rest (some m)

/-- The interleaving of two concurrent publish requests in which both
read phases complete before either write phase starts (each request's
`PACKAGES.get` observes the initial store; Cloudflare KV offers no
transaction, so this schedule is possible whenever the two handler
invocations overlap across their `await` points).  Returns the two
responses and the final store when both reads pass, `none` otherwise. -/
def raceSchedule (hash : List Nat → String) (now1 now2 : String)
    (r1 r2 : PublishReq) (env : Store) : Option (Resp × Resp × Store) :=
  match publishRead hash now1 r1 env, publishRead hash now2 r2 env with
  | .ok p1, .ok p2 =>
      let s1 := (publishWrite p1 env).2
      some ((publishWrite p1 env).1, (publishWrite p2 s1).1, (publishWrite p2 s1).2)
  | _, _ => none

/-! ### Concrete sample data for counterexamples and witnesses -/

/-- A concrete stand-in for the SHA-256 digest (the claims never depend on
the digest's value, only on it being a deterministic function of the
bytes). -/
def demoHash : List Nat → String := fun b => "h" ++ toString b.length

/-- Sample user owning the package `foo`. -/
def aliceUser : User :=
  { id := "uA", email := "alice@example.com", name := "Alice",
    created_at := "T0", packages := ["foo"] }

/-- Sample authenticated user who owns nothing. -/
def bobUser : User :=
  { id := "uB", email := "bob@example.com", name := "Bob",
    created_at := "T0", packages := [] }

/-- Version `1.0.0` of `foo`, not yanked. -/
def fooV1 : PackageVersion :=
  { version := "1.0.0", published_at := "T1", yanked := false,
    checksum := "h3", size := 3, signature := none,
    publisher_fingerprint := none }

/-- Metadata of the sample package `foo`. -/
def fooMeta : PackageMetadata :=
  { name := "foo", description := "a demo package", authors := ["Alice"],
    license := "MIT", repository := none, homepage := none,
    keywords := ["demo"], versions := [fooV1], created_at := "T1",
    updated_at := "T1", downloads := 0 }

/-- Sample store: `foo@1.0.0` published by Alice, Bob registered. -/
def sampleStore : Store :=
  { adminToken := some "ADMIN-SECRET",
    packages := [("pkg:foo", fooMeta)],
    users := [("uA", aliceUser), ("uB", bobUser)],
    tokens := [("tokA", "uA"), ("tokB", "uB")],
    tarballs := [("foo/1.0.0.tar.gz",
      { bytes := [1, 2, 3], checksum := "h3", publisher := "uA",
        published_at := "T1" })] }

/-- The sample store with `foo@1.0.0` yanked (`updated_at` still `"T1"`). -/
def yankedStore : Store :=
  { sampleStore with
    packages := [("pkg:foo",
      { fooMeta with versions := [{ fooV1 with yanked := true }] })] }

/-- Bob's attempt to publish `foo@2.0.0`, a package he does not own. -/
def bobReq : PublishReq :=
  { authHeader := some "Bearer tokB", body := [9, 9],
    nameHeader := some "foo", versionHeader := some "2.0.0",
    descriptionHeader := some "hijacked", signatureHeader := none,
    fingerprintHeader := none }

/-- First racing publish of `foo@1.1.0` (body `[9]`). -/
def raceReq1 : PublishReq :=
  { authHeader := some "Bearer tokA", body := [9],
    nameHeader := some "foo", versionHeader := some "1.1.0",
    descriptionHeader := none, signatureHeader := none,
    fingerprintHeader := none }

/-- Second racing publish of the same `foo@1.1.0` (body `[8, 8]`). -/
def raceReq2 : PublishReq :=
  { authHeader := some "Bearer tokA", body := [8, 8],
    nameHeader := some "foo", versionHeader := some "1.1.0",
    descriptionHeader := none, signatureHeader := none,
    fingerprintHeader := none }

/-- The pending state of the first racing publish after its read phase
(computed from `publishRead demoHash "T2" raceReq1 sampleStore`). -/
def racePending1 : PendingPublish :=
  { nm := "foo", ver := "1.1.0", body := [9], checksum := "h1",
    user := aliceUser,
    meta := { fooMeta with
      versions := [{ version := "1.1.0", published_at := "T2",
                     yanked := false, checksum := "h1", size := 1,
                     signature := none, publisher_fingerprint := none },
                   fooV1],
      updated_at := "T2" },
    published_at := "T2" }

/-- The pending state of the second racing publish after its read phase
(computed from `publishRead demoHash "T3" raceReq2 sampleStore`; its read
also observed `1.1.0` as absent). -/
def racePending2 : PendingPublish :=
  { nm := "foo", ver := "1.1.0", body := [8, 8], checksum := "h2",
    user := aliceUser,
    meta := { fooMeta with
      versions := [{ version := "1.1.0", published_at := "T3",
                     yanked := false, checksum := "h2", size := 2,
                     signature := none, publisher_fingerprint := none },
                   fooV1],
      updated_at := "T3" },
    published_at := "T3" }

/-! ### Order-theoretic lemmas about the comparison loop -/

theorem negPart_eq (bs : List Int) : negPart bs = -(cmpLoop bs []) := by
  induction bs with
  | nil => simp [negPart, cmpLoop]
  | cons b bs ih =>
      simp only [negPart, cmpLoop]
      by_cases h : b = 0
      · simp [h, ih]
      · simp [h]

theorem cmpLoop_self (as : List Int) : cmpLoop as as = 0 := by
  induction as with
  | nil => rfl
  | cons a as ih => simp [cmpLoop, ih]

theorem cmpLoop_neg (as bs : List Int) : cmpLoop as bs = -(cmpLoop bs as) := by
  induction as generalizing bs with
  | nil =>
      show negPart bs = -(cmpLoop bs [])
      exact negPart_eq bs
  | cons a as ih =>
      cases bs with
      | nil =>
          show cmpLoop (a :: as) [] = -(negPart (a :: as))
          simp only [cmpLoop, negPart]
          by_cases h : a = 0
          · simpa [h] using (negPart_eq as).symm ▸ (by simp [negPart_eq as])
          · simp [h]
      | cons b bs =>
          simp only [cmpLoop]
          by_cases h : a = b
          · rw [if_pos h, if_pos h.symm]
            exact ih bs
          · have h' : ¬ b = a := fun hh => h hh.symm
            rw [if_neg h, if_neg h']
            omega

/-- Appending a zero to the first list does not change the comparison. -/
theorem cmpLoop_append_zero (as bs : List Int) :
    cmpLoop (as ++ [0]) bs = cmpLoop as bs := by
  induction as generalizing bs with
  | nil =>
      cases bs with
      | nil => rfl
      | cons b bs =>
          show cmpLoop [0] (b :: bs) = negPart (b :: bs)
          simp only [cmpLoop, negPart]
          by_cases h : b = 0
          · rw [if_pos h.symm, if_pos h]
          · have h' : ¬ (0 : Int) = b := fun hh => h hh.symm
            rw [if_neg h', if_neg h]
            omega
  | cons a as ih =>
      cases bs with
      | nil =>
          show cmpLoop (a :: (as ++ [0])) [] = cmpLoop (a :: as) []
          simp only [cmpLoop]
          by_cases h : a = 0 <;> simp [h, ih]
      | cons b bs =>
          simp only [List.cons_append, cmpLoop]
          by_cases h : a = b <;> simp [h, ih]

/-- Padding the first list with zeros does not change the comparison. -/
theorem cmpLoop_pad_fst (k : Nat) (as bs : List Int) :
    cmpLoop (as ++ List.replicate k 0) bs = cmpLoop as bs := by
  induction k generalizing as with
  | zero => simp
  | succ k ih =>
      have : as ++ List.replicate (k + 1) 0 = (as ++ [0]) ++ List.replicate k 0 := by
        simp [List.replicate_succ, List.append_assoc]
      rw [this, ih, cmpLoop_append_zero]

/-- Padding the second list with zeros does not change the comparison. -/
theorem cmpLoop_pad_snd (k : Nat) (as bs : List Int) :
    cmpLoop as (bs ++ List.replicate k 0) = cmpLoop as bs := by
  rw [cmpLoop_neg, cmpLoop_pad_fst, ← cmpLoop_neg]

/-- Transitivity of `cmpLoop ⋯ ≤ 0` for lists of equal length. -/
theorem cmpLoop_trans_aux :
    ∀ (as bs cs : List Int), as.length = bs.length → bs.length = cs.length →
      cmpLoop as bs ≤ 0 → cmpLoop bs cs ≤ 0 → cmpLoop as cs ≤ 0
  | [], [], [], _, _, _, _ => by simp [cmpLoop, negPart]
  | a :: as, b :: bs, c :: cs, h1, h2, hab, hbc => by
      simp only [cmpLoop] at hab hbc ⊢
      by_cases hac : a = c
      · subst hac
        by_cases h : a = b
        · subst h
          simp only [if_pos rfl] at hab hbc ⊢
          exact cmpLoop_trans_aux as bs cs (by simpa using h1) (by simpa using h2)
            hab hbc
        · rw [if_neg h] at hab
          rw [if_neg (fun hh => h hh.symm)] at hbc
          omega
      · rw [if_neg hac]
        by_cases h : a = b
        · subst h
          rw [if_neg hac] at hbc
          omega
        · rw [if_neg h] at hab
          by_cases h' : b = c
          · subst h'
            omega
          · rw [if_neg h'] at hbc
            omega

/-- The list of parts padded with zeros up to length `n`. -/
def padZeros (n : Nat) (as : List Int) : List Int :=
  as ++ List.replicate (n - as.length) 0

theorem length_padZeros {n : Nat} {as : List Int} (h : as.length ≤ n) :
    (padZeros n as).length = n := by
  simp [padZeros]
  omega

theorem cmpLoop_padZeros (n : Nat) (as bs : List Int) :
    cmpLoop (padZeros n as) (padZeros n bs) = cmpLoop as bs := by
  unfold padZeros
  rw [cmpLoop_pad_fst, cmpLoop_pad_snd]

/-- Transitivity of the non-strict comparison order. -/
theorem cmpLoop_trans {as bs cs : List Int}
    (hab : cmpLoop as bs ≤ 0) (hbc : cmpLoop bs cs ≤ 0) :
    cmpLoop as cs ≤ 0 := by
  set n := max as.length (max bs.length cs.length) with hn
  have ha : as.length ≤ n := le_max_left _ _
  have hb : bs.length ≤ n := le_trans (le_max_left _ _) (le_max_right _ _)
  have hc : cs.length ≤ n := le_trans (le_max_right _ _) (le_max_right _ _)
  have := cmpLoop_trans_aux (padZeros n as) (padZeros n bs) (padZeros n cs)
    (by rw [length_padZeros ha, length_padZeros hb])
    (by rw [length_padZeros hb, length_padZeros hc])
    (by rwa [cmpLoop_padZeros]) (by rwa [cmpLoop_padZeros])
  rwa [cmpLoop_padZeros] at this

/-- If the padded components agree strictly before position `i` and the
first list is smaller at position `i`, the loop answers negative. -/
theorem cmpLoop_lt_of_getD_lt :
    ∀ (i : Nat) (as bs : List Int),
      (∀ j, j < i → as.getD j 0 = bs.getD j 0) →
      as.getD i 0 < bs.getD i 0 → cmpLoop as bs < 0
  | 0, [], [], _, hlt => by simp at hlt
  | 0, [], b :: bs, _, hlt => by
      simp only [List.getD] at hlt
      simp only [cmpLoop, negPart]
      have hb : ¬ b = 0 := by simp at hlt; omega
      rw [if_neg hb]
      simp at hlt
      omega
  | 0, a :: as, [], _, hlt => by
      simp only [List.getD] at hlt
      simp only [cmpLoop]
      have ha : ¬ a = 0 := by simp at hlt; omega
      rw [if_neg ha]
      simpa using hlt
  | 0, a :: as, b :: bs, _, hlt => by
      simp only [List.getD] at hlt
      simp only [cmpLoop]
      have h : ¬ a = b := by simp at hlt; omega
      rw [if_neg h]
      simp at hlt
      omega
  | i + 1, [], [], _, hlt => by simp at hlt
  | i + 1, [], b :: bs, hpre, hlt => by
      have h0 : b = 0 := by
        have := hpre 0 (Nat.succ_pos i)
        simpa using this.symm
      simp only [cmpLoop, negPart, if_pos h0]
      have : cmpLoop ([] : List Int) bs < 0 := by
        apply cmpLoop_lt_of_getD_lt i
        · intro j hj
          have := hpre (j + 1) (by omega)
          simpa using this
        · simpa using hlt
      simpa [cmpLoop] using this
  | i + 1, a :: as, [], hpre, hlt => by
      have h0 : a = 0 := by
        have := hpre 0 (Nat.succ_pos i)
        simpa using this
      simp only [cmpLoop, if_pos h0]
      apply cmpLoop_lt_of_getD_lt i
      · intro j hj
        have := hpre (j + 1) (by omega)
        simpa using this
      · simpa using hlt
  | i + 1, a :: as, b :: bs, hpre, hlt => by
      have h0 : a = b := by
        have := hpre 0 (Nat.succ_pos i)
        simpa using this
      simp only [cmpLoop, if_pos h0]
      apply cmpLoop_lt_of_getD_lt i
      · intro j hj
        have := hpre (j + 1) (by omega)
        simpa using this
      · simpa using hlt

/-! ### Order lemmas at the `compareVersions` level -/

theorem compareVersions_self (a : String) : compareVersions a a = 0 :=
  cmpLoop_self _

theorem compareVersions_antisym (a b : String) :
    compareVersions a b = -(compareVersions b a) :=
  cmpLoop_neg _ _

theorem compareVersions_trans {a b c : String}
    (hab : compareVersions a b ≤ 0) (hbc : compareVersions b c ≤ 0) :
    compareVersions a c ≤ 0 :=
  cmpLoop_trans hab hbc

theorem compareVersions_total (a b : String) :
    compareVersions a b ≤ 0 ∨ compareVersions b a ≤ 0 := by
  rcases le_or_lt (compareVersions a b) 0 with h | h
  · exact Or.inl h
  · right
    rw [compareVersions_antisym]
    omega

/-! ### Lemmas about the sort model -/

theorem insertStable_perm (le : α → α → Bool) (a : α) (l : List α) :
    List.Perm (insertStable le a l) (a :: l) := by
  induction l with
  | nil => exact List.Perm.refl _
  | cons b bs ih =>
      by_cases h : le b a
      · simp only [insertStable, if_pos h]
        exact (ih.cons b).trans (List.Perm.swap a b bs)
      · simp only [insertStable, if_neg h]
        exact List.Perm.refl _

theorem jsSortBy_perm (le : α → α → Bool) (l : List α) :
    List.Perm (jsSortBy le l) l := by
  induction l with
  | nil => exact List.Perm.refl _
  | cons a as ih => exact (insertStable_perm le a (jsSortBy le as)).trans (ih.cons a)

theorem mem_insertStable {le : α → α → Bool} {a x : α} {l : List α} :
    x ∈ insertStable le a l ↔ x = a ∨ x ∈ l := by
  rw [(insertStable_perm le a l).mem_iff, List.mem_cons]

theorem pairwise_insertStable {le : α → α → Bool}
    (htrans : ∀ x y z, le x y = true → le y z = true → le x z = true)
    (htot : ∀ x y, le x y = true ∨ le y x = true) (a : α) :
    ∀ l : List α, l.Pairwise (fun x y => le x y = true) →
      (insertStable le a l).Pairwise (fun x y => le x y = true)
  | [], _ => by simp [insertStable]
  | b :: bs, hp => by
      rcases List.pairwise_cons.mp hp with ⟨hb, hbs⟩
      by_cases h : le b a
      · simp only [insertStable, if_pos h]
        refine List.pairwise_cons.mpr ⟨?_, pairwise_insertStable htrans htot a bs hbs⟩
        intro x hx
        rcases mem_insertStable.mp hx with rfl | hx
        · exact h
        · exact hb x hx
      · simp only [insertStable, if_neg h]
        have hab : le a b = true := by
          rcases htot a b with h' | h'
          · exact h'
          · exact absurd h' h
        refine List.pairwise_cons.mpr ⟨?_, hp⟩
        intro x hx
        rcases List.mem_cons.mp hx with rfl | hx
        · exact hab
        · exact htrans a b x hab (hb x hx)

theorem pairwise_jsSortBy {le : α → α → Bool}
    (htrans : ∀ x y z, le x y = true → le y z = true → le x z = true)
    (htot : ∀ x y, le x y = true ∨ le y x = true) :
    ∀ l : List α, (jsSortBy le l).Pairwise (fun x y => le x y = true)
  | [] => by simp [jsSortBy]
  | a :: as =>
      pairwise_insertStable htrans htot a (jsSortBy le as)
        (pairwise_jsSortBy htrans htot as)

/-- The descending order the registry keeps `versions` in. -/
def versionDesc (a b : PackageVersion) : Prop :=
  compareVersions b.version a.version ≤ 0

theorem sortVersions_perm (vs : List PackageVersion) : List.Perm (sortVersions vs) vs :=
  jsSortBy_perm _ _

theorem sortVersions_sorted (vs : List PackageVersion) :
    (sortVersions vs).Pairwise versionDesc := by
  have h := @pairwise_jsSortBy PackageVersion
    (fun a b : PackageVersion => decide (compareVersions b.version a.version ≤ 0))
    (fun x y z hxy hyz => by
      simp only [decide_eq_true_eq] at hxy hyz ⊢
      exact compareVersions_trans hyz hxy)
    (fun x y => by
      simp only [decide_eq_true_eq]
      exact compareVersions_total _ _) vs
  refine h.imp ?_
  intro a b hab
  simpa [versionDesc] using hab

/-! ### Store-level helper lemmas -/

theorem kvGet_cons (p : String × α) (rest : List (String × α)) (k : String) :
    kvGet (p :: rest) k = if p.1 = k then some p.2 else kvGet rest k := by
  by_cases h : p.1 = k
  · simp [kvGet, List.find?, h]
  · simp [kvGet, List.find?, h]

theorem kvGet_kvPut_self (l : List (String × α)) (k : String) (v : α) :
    kvGet (kvPut l k v) k = some v := by
  induction l with
  | nil => simp [kvPut, kvGet, List.find?]
  | cons p rest ih =>
      by_cases h : p.1 = k
      · simp [kvPut, h, kvGet_cons]
      · simp [kvPut, h, kvGet_cons, ih]

theorem kvGet_kvPut_ne (l : List (String × α)) {k k' : String} (v : α)
    (h : k ≠ k') : kvGet (kvPut l k v) k' = kvGet l k' := by
  induction l with
  | nil => simp [kvPut, kvGet_cons, h]
  | cons p rest ih =>
      by_cases hp : p.1 = k
      · simp [kvPut, hp, kvGet_cons, h, ih]
      · simp [kvPut, hp, kvGet_cons, ih]

theorem setYankedFirst_found (ver : String) (yank : Bool) :
    ∀ vs : List PackageVersion,
      (vs.find? (fun v => v.version = ver)).isSome = true →
      ∃ v' ∈ setYankedFirst ver yank vs, v'.version = ver ∧ v'.yanked = yank
  | [], h => by simp [List.find?] at h
  | v :: vs, h => by
      by_cases hv : v.version = ver
      · refine ⟨{ v with yanked := yank }, ?_, ?_, rfl⟩
        · simp [setYankedFirst, hv]
        · simpa using hv
      · have h' : (vs.find? (fun v => v.version = ver)).isSome = true := by
          simpa [List.find?, hv] using h
        obtain ⟨v', hm, hv', hy⟩ := setYankedFirst_found ver yank vs h'
        refine ⟨v', ?_, hv', hy⟩
        simp [setYankedFirst, hv, hm]

theorem setYankedFirst_frame (ver : String) (yank : Bool) :
    ∀ vs : List PackageVersion,
      List.Forall₂ (fun v v' =>
        v'.version = v.version ∧ v'.published_at = v.published_at ∧
        v'.checksum = v.checksum ∧ v'.size = v.size ∧
        v'.signature = v.signature ∧
        v'.publisher_fingerprint = v.publisher_fingerprint ∧
        (¬ v.version = ver → v' = v)) vs (setYankedFirst ver yank vs)
  | [] => List.Forall₂.nil
  | v :: vs => by
      by_cases hv : v.version = ver
      · simp only [setYankedFirst, if_pos hv]
        refine List.Forall₂.cons ⟨rfl, rfl, rfl, rfl, rfl, rfl, fun h => absurd hv h⟩ ?_
        exact (List.forall₂_same).mpr (fun a _ => ⟨rfl, rfl, rfl, rfl, rfl, rfl, fun _ => rfl⟩)
      · simp only [setYankedFirst, if_neg hv]
        exact List.Forall₂.cons ⟨rfl, rfl, rfl, rfl, rfl, rfl, fun _ => rfl⟩
          (setYankedFirst_frame ver yank vs)

/-! ### Publish pipeline helper lemmas -/

theorem applyPublish_error {now nm desc author : String} {nv : PackageVersion}
    {acc : Option PackageMetadata} {r : Resp}
    (h : applyPublish now nm desc author nv acc = .error r) : r = ⟨409⟩ := by
  cases acc with
  | none => simp [applyPublish] at h
  | some m =>
      by_cases hd : m.versions.any (fun v => v.version = nv.version)
      · simp only [applyPublish, if_pos hd] at h
        injection h with h'
        exact h'.symm
      · simp [applyPublish, hd] at h

theorem applyPublish_ok {now nm desc author : String} {nv : PackageVersion}
    {acc : Option PackageMetadata} {m : PackageMetadata}
    (h : applyPublish now nm desc author nv acc = .ok m) :
    nv ∈ m.versions ∧ m.updated_at = now := by
  cases acc with
  | none =>
      simp only [applyPublish] at h
      cases h
      constructor
      · show nv ∈ sortVersions (_ ++ [nv])
        rw [(sortVersions_perm _).mem_iff]
        simp
      · rfl
  | some m0 =>
      by_cases hd : m0.versions.any (fun v => v.version = nv.version)
      · simp [applyPublish, hd] at h
      · simp only [applyPublish, if_neg hd] at h
        cases h
        constructor
        · show nv ∈ sortVersions (_ ++ [nv])
          rw [(sortVersions_perm _).mem_iff]
          simp
        · rfl

theorem publishRead_error_status {hash : List Nat → String} {now : String}
    {req : PublishReq} {env : Store} {r : Resp}
    (h : publishRead hash now req env = .error r) :
    r = ⟨401⟩ ∨ r = ⟨400⟩ ∨ r = ⟨409⟩ := by
  unfold publishRead at h
  repeat' split at h
  all_goals
    first
      | (injection h with h'; exact Or.inl h'.symm)
      | (injection h with h'; exact Or.inr (Or.inl h'.symm))
      | (rename_i heq
         rw [applyPublish_error heq] at h
         injection h with h'
         exact Or.inr (Or.inr h'.symm))
      | (exact absurd h (by simp))

theorem publishRead_ok {hash : List Nat → String} {now : String}
    {req : PublishReq} {env : Store} {p : PendingPublish}
    (h : publishRead hash now req env = .ok p) :
    p.nm = req.nameHeader.getD "" ∧ p.ver = req.versionHeader.getD "" ∧
    validName p.nm = true ∧ validVersion p.ver = true ∧
    headerFalsy req.nameHeader = false ∧ headerFalsy req.versionHeader = false ∧
    p.meta.updated_at = now ∧
    ∃ v ∈ p.meta.versions, v.version = p.ver := by
  unfold publishRead at h
  repeat' split at h
  all_goals try (exact absurd h (fun hh => Except.noConfusion hh))
  rename_i hfal hname hver x meta heq
  injection h with h'
  subst h'
  obtain ⟨hmem, hupd⟩ := applyPublish_ok heq
  have hfal' : headerFalsy req.nameHeader = false ∧
      headerFalsy req.versionHeader = false := by
    constructor <;> simp_all
  refine ⟨rfl, rfl, by simpa using hname, by simpa using hver, hfal'.1, hfal'.2,
    hupd, ?_⟩
  exact ⟨mkNewVersion hash now req, hmem, rfl⟩

theorem publishWrite_packages (p : PendingPublish) (env : Store) :
    (publishWrite p env).2.packages =
      kvPut env.packages ("pkg:" ++ p.nm) p.meta := by
  unfold publishWrite
  split <;> rfl

theorem publishWrite_status (p : PendingPublish) (env : Store) :
    (publishWrite p env).1 = ⟨201⟩ := by
  unfold publishWrite
  split <;> rfl

/-- A `201` response from the publish handler means the read phase
succeeded and the final store is the one produced by the write phase. -/
theorem publish_201 {hash : List Nat → String} {now : String}
    {req : PublishReq} {env : Store}
    (h : (handlePublishPackage hash now req env).1 = ⟨201⟩) :
    ∃ p, publishRead hash now req env = .ok p ∧
      handlePublishPackage hash now req env = publishWrite p env := by
  cases hr : publishRead hash now req env with
  | error r =>
      exfalso
      unfold handlePublishPackage at h
      rw [hr] at h
      rcases publishRead_error_status hr with rfl | rfl | rfl <;> simp at h
  | ok p =>
      refine ⟨p, rfl, ?_⟩
      unfold handlePublishPackage
      rw [hr]

/-! ### Character and split lemmas for the pre-release analysis -/

theorem isDigit_not_ws {c : Char} (h : c.isDigit = true) :
    c.isWhitespace = false := by
  rcases Bool.eq_false_or_eq_true c.isWhitespace with hw | hw
  · exfalso
    have hc : ((c = ' ' ∨ c = '\t') ∨ c = '\r') ∨ c = '\n' := by
      simpa [Char.isWhitespace] using hw
    rcases hc with ((rfl | rfl) | rfl) | rfl <;> exact absurd h (by decide)
  · exact hw

theorem isDigit_ne_dash {c : Char} (h : c.isDigit = true) : c ≠ '-' := by
  intro hc
  subst hc
  exact absurd h (by decide)

theorem isDigit_ne_plus {c : Char} (h : c.isDigit = true) : c ≠ '+' := by
  intro hc
  subst hc
  exact absurd h (by decide)

theorem isDigit_ne_dot {c : Char} (h : c.isDigit = true) : c ≠ '.' := by
  intro hc
  subst hc
  exact absurd h (by decide)

/-- A run of characters all satisfying `p` is taken whole. -/
theorem takeWhile_of_all {p : α → Bool} :
    ∀ {l : List α}, (∀ a ∈ l, p a = true) → l.takeWhile p = l
  | [], _ => rfl
  | a :: l, h => by
      rw [List.takeWhile_cons_of_pos (h a (by simp))]
      rw [takeWhile_of_all (fun b hb => h b (by simp [hb]))]

/-- Parsing a nonempty digit run followed by a dash-led tail ignores the
tail entirely. -/
theorem jsParseIntOr0_digits_dash {pa : List Char} (tail : List Char)
    (hne : pa ≠ []) (hd : ∀ c ∈ pa, c.isDigit = true) :
    jsParseIntOr0 (pa ++ '-' :: tail) = jsParseIntOr0 pa := by
  obtain ⟨d, ds, rfl⟩ := List.exists_cons_of_ne_nil hne
  have hdd : d.isDigit = true := hd d (by simp)
  have hdw : d.isWhitespace = false := isDigit_not_ws hdd
  have hdash : d ≠ '-' := isDigit_ne_dash hdd
  have hplus : d ≠ '+' := isDigit_ne_plus hdd
  have hdrop1 : ((d :: ds) ++ '-' :: tail).dropWhile Char.isWhitespace
      = d :: (ds ++ '-' :: tail) := by
    simp [List.dropWhile_cons, hdw]
  have hdrop2 : (d :: ds).dropWhile Char.isWhitespace = d :: ds := by
    simp [List.dropWhile_cons, hdw]
  have htake : (d :: (ds ++ '-' :: tail)).takeWhile Char.isDigit
      = (d :: ds).takeWhile Char.isDigit := by
    have hc : (d :: (ds ++ '-' :: tail)) = (d :: ds) ++ '-' :: tail := by simp
    rw [hc, List.takeWhile_append_of_pos hd, takeWhile_of_all hd]
    have h2 : ('-' :: tail).takeWhile Char.isDigit = [] :=
      List.takeWhile_cons_of_neg (by decide)
    rw [h2, List.append_nil]
  unfold jsParseIntOr0
  rw [hdrop1, hdrop2]
  dsimp only
  rw [if_neg hdash, if_neg hplus, if_neg hdash, if_neg hplus, htake]

/-- A separator-free list splits into a single segment. -/
theorem splitCh_no_sep {sep : Char} :
    ∀ {xs : List Char}, (∀ c ∈ xs, c ≠ sep) → splitCh sep xs = [xs]
  | [], _ => rfl
  | c :: cs, h => by
      rw [splitCh, if_neg (h c (by simp)), splitCh_no_sep (fun b hb => h b (by simp [hb]))]

/-- Splitting at the first separator occurrence. -/
theorem splitCh_append {sep : Char} :
    ∀ {xs : List Char} (ys : List Char), (∀ c ∈ xs, c ≠ sep) →
      splitCh sep (xs ++ sep :: ys) = xs :: splitCh sep ys
  | [], ys, _ => by
      show splitCh sep (sep :: ys) = [] :: splitCh sep ys
      rw [splitCh, if_pos rfl]
  | c :: cs, ys, h => by
      rw [List.cons_append, splitCh, if_neg (h c (by simp)),
        splitCh_append ys (fun b hb => h b (by simp [hb]))]

/-! ### Further helper lemmas -/

/-- The empty needle is a substring of everything. -/
theorem listIncludes_nil (hay : List Char) : listIncludes hay [] = true := by
  cases hay <;> simp [listIncludes, List.isPrefixOf]

theorem validName_ne_empty {s : String} (h : validName s = true) : s ≠ "" := by
  intro hs
  subst hs
  exact absurd h (by decide)

theorem validVersion_ne_empty {s : String} (h : validVersion s = true) :
    s ≠ "" := by
  intro hs
  subst hs
  exact absurd h (by decide)

/-- The duplicate check passes when no stored version carries the new
version string. -/
theorem applyPublish_some_ok {now nm desc author : String}
    {nv : PackageVersion} {m : PackageMetadata}
    (h : ∀ v ∈ m.versions, v.version ≠ nv.version) :
    applyPublish now nm desc author nv (some m) =
      .ok (insertVersion now nv m) := by
  simp only [applyPublish]
  rw [if_neg]
  simp only [List.any_eq_true, decide_eq_true_eq, not_exists]
  intro v hv
  exact h v hv.1 hv.2

/-- The duplicate check fires when some stored version carries the new
version string. -/
theorem applyPublish_some_conflict {now nm desc author : String}
    {nv : PackageVersion} {m : PackageMetadata}
    (h : ∃ v ∈ m.versions, v.version = nv.version) :
    applyPublish now nm desc author nv (some m) = .error ⟨409⟩ := by
  simp only [applyPublish]
  rw [if_pos]
  simp only [List.any_eq_true, decide_eq_true_eq]
  exact h

/-- The first record matching the version string keeps its place (and all
its other fields) but carries the new yanked flag. -/
theorem find?_setYankedFirst {ver : String} {yank : Bool} :
    ∀ {vs : List PackageVersion} {vi : PackageVersion},
      vs.find? (fun v => v.version = ver) = some vi →
      (setYankedFirst ver yank vs).find? (fun v => v.version = ver) =
        some { vi with yanked := yank }
  | [], vi, h => by simp [List.find?] at h
  | v :: vs, vi, h => by
      by_cases hv : v.version = ver
      · have hvi : v = vi := by
          simpa [List.find?_cons_of_pos, hv] using h
        subst hvi
        simp [setYankedFirst, hv, List.find?_cons_of_pos]
      · have h' : vs.find? (fun v => v.version = ver) = some vi := by
          simpa [List.find?_cons_of_neg, hv] using h
        simp only [setYankedFirst, if_neg hv]
        rw [List.find?_cons_of_neg _ (by simpa using hv)]
        exact find?_setYankedFirst h'

/-- A fully authorized yank/unyank request reaches the write and produces
exactly the store with the one updated package record. -/
theorem handleYankVersion_success (yank : Bool) {nm ver : String}
    {auth : Option String} {tok now : String} {u : User} {env : Store}
    {m : PackageMetadata} {vi : PackageVersion}
    (htok : bearerToken auth = some tok)
    (hu : verifyToken tok now env = some u)
    (hm : kvGet env.packages ("pkg:" ++ nm) = some m)
    (hfind : m.versions.find? (fun v => v.version = ver) = some vi)
    (hown : u.id = "admin" ∨ u.packages.contains nm = true) :
    handleYankVersion nm ver yank auth now env =
      (⟨200⟩,
        { env with
            packages :=
              kvPut env.packages ("pkg:" ++ nm)
                { m with
                    versions := setYankedFirst ver yank m.versions,
                    updated_at := now } }) := by
  unfold handleYankVersion
  simp only [htok, hu, hm, hfind]
  rw [if_neg]
  rintro ⟨hne, hnc⟩
  rcases hown with h | h
  · exact hne h
  · exact hnc (by simpa using h)

/-! ### Claim C4 -/

/-- Claim C4, counterexample: `"1.0.0-alpha.1"` and `"1.0.0-alpha.2"` have
identical major, minor and patch and differ only in their pre-release
suffix, yet `compareVersions` answers `-1` (LESS), not `0` (EQUAL): a dot
inside the pre-release suffix produces an extra numeric component that the
comparison does consider. -/
theorem compareVersions_prerelease_counterexample :
    versionTriple "1.0.0-alpha.1" = versionTriple "1.0.0-alpha.2" ∧
    compareVersions "1.0.0-alpha.1" "1.0.0-alpha.2" = -1 ∧
    ¬ compareVersions "1.0.0-alpha.1" "1.0.0-alpha.2" = 0 := by
  decide

/-- Claim C4 (amended): two versions with the same `major.minor.patch`
whose pre-release suffixes contain no dot compare EQUAL — the dash-led
suffix is discarded by `parseInt` — but a dotted suffix contributes extra
components (see the counterexample). -/
theorem compareVersions_prerelease_ignored
    (ma mi pa pre pre' : List Char)
    (hma : '.' ∉ ma) (hmi : '.' ∉ mi)
    (hpa : pa ≠ []) (hpad : ∀ c ∈ pa, c.isDigit = true)
    (hpre : '.' ∉ pre) (hpre' : '.' ∉ pre') :
    compareVersions
      (String.mk (ma ++ '.' :: mi ++ '.' :: pa ++ '-' :: pre))
      (String.mk (ma ++ '.' :: mi ++ '.' :: pa ++ '-' :: pre')) = 0 := by
  have hma' : ∀ c ∈ ma, c ≠ '.' := fun c hc he => hma (he ▸ hc)
  have hmi' : ∀ c ∈ mi, c ≠ '.' := fun c hc he => hmi (he ▸ hc)
  have hseg : ∀ tail : List Char, '.' ∉ tail →
      ∀ c ∈ pa ++ '-' :: tail, c ≠ '.' := by
    intro tail htail c hc
    rcases List.mem_append.mp hc with hc | hc
    · exact isDigit_ne_dot (hpad c hc)
    · rcases List.mem_cons.mp hc with rfl | hc
      · decide
      · exact fun he => htail (he ▸ hc)
  have hparts : ∀ tail : List Char, '.' ∉ tail →
      versionParts (String.mk (ma ++ '.' :: mi ++ '.' :: pa ++ '-' :: tail)) =
        [jsParseIntOr0 ma, jsParseIntOr0 mi, jsParseIntOr0 pa] := by
    intro tail htail
    show ((splitCh '.' (String.mk
      (ma ++ '.' :: mi ++ '.' :: pa ++ '-' :: tail)).toList).map jsParseIntOr0) = _
    have htl : (String.mk (ma ++ '.' :: mi ++ '.' :: pa ++ '-' :: tail)).toList
        = ma ++ '.' :: (mi ++ '.' :: (pa ++ '-' :: tail)) := by
      simp [String.toList]
    rw [htl, splitCh_append _ hma', splitCh_append _ hmi',
      splitCh_no_sep (hseg tail htail), List.map_cons, List.map_cons,
      List.map_cons, List.map_nil, jsParseIntOr0_digits_dash tail hpa hpad]
  unfold compareVersions
  rw [hparts pre hpre, hparts pre' hpre']
  exact cmpLoop_self _

/-- Claim C4 amended, witness at `1.0.0-alpha` versus `1.0.0-beta`. -/
theorem compareVersions_prerelease_ignored_witness :
    compareVersions "1.0.0-alpha" "1.0.0-beta" = 0 := by
  have h := compareVersions_prerelease_ignored ['1'] ['0'] ['0']
    ['a', 'l', 'p', 'h', 'a'] ['b', 'e', 't', 'a']
    (by decide) (by decide) (by decide) (by decide) (by decide) (by decide)
  exact h

/-! ### Claim C5 -/

/-- Claim C5: `compareVersions` is a total (pre)order on version strings:
reflexively `EQUAL`, antisymmetric under swap, total, and transitive; it
is consistent with the numeric lexicographic order on the parsed (major,
minor, patch) triples, with missing components defaulting to `0`
(`"1.0"` equals `"1.0.0"`); and `compareVersions "1.2.0" "1.10.0"` is
LESS. -/
theorem compareVersions_total_order :
    (∀ a, compareVersions a a = 0) ∧
    (∀ a b, compareVersions a b = -(compareVersions b a)) ∧
    (∀ a b, compareVersions a b ≤ 0 ∨ compareVersions b a ≤ 0) ∧
    (∀ a b c, compareVersions a b ≤ 0 → compareVersions b c ≤ 0 →
      compareVersions a c ≤ 0) ∧
    (∀ a b, tripleLt (versionTriple a) (versionTriple b) →
      compareVersions a b < 0) ∧
    compareVersions "1.2.0" "1.10.0" < 0 ∧
    compareVersions "1.0" "1.0.0" = 0 := by
  refine ⟨compareVersions_self, compareVersions_antisym, compareVersions_total,
    fun a b c => compareVersions_trans, ?_, by decide, by decide⟩
  intro a b hlt
  show cmpLoop (versionParts a) (versionParts b) < 0
  rcases hlt with h0 | ⟨he0, h1 | ⟨he1, h2⟩⟩
  · exact cmpLoop_lt_of_getD_lt 0 _ _ (fun j hj => absurd hj (by omega)) h0
  · refine cmpLoop_lt_of_getD_lt 1 _ _ ?_ h1
    intro j hj
    have : j = 0 := by omega
    subst this
    exact he0
  · refine cmpLoop_lt_of_getD_lt 2 _ _ ?_ h2
    intro j hj
    have hj' : j = 0 ∨ j = 1 := by omega
    rcases hj' with rfl | rfl
    · exact he0
    · exact he1

/-- Claim C5, witness: the transitivity and triple-monotonicity
components applied at concrete version strings. -/
theorem compareVersions_total_order_witness :
    compareVersions "1.0.0" "3.0.0" ≤ 0 ∧ compareVersions "0.9.9" "1.0.0" < 0 := by
  constructor
  · exact compareVersions_total_order.2.2.2.1 "1.0.0" "2.0.0" "3.0.0"
      (by decide) (by decide)
  · exact compareVersions_total_order.2.2.2.2.1 "0.9.9" "1.0.0" (by decide)

/-! ### Claim C9 -/

/-- Claim C9: search returns exactly the stored records whose lowercased
name, description, or some lowercased keyword contains the lowercased
query as a substring; the empty query returns every record; and the query
`"nomatch-xyz"` on the sample store returns the empty sequence. -/
theorem handleSearchPackages_spec :
    (∀ (env : Store) (q : String) (m : PackageMetadata),
      m ∈ handleSearchPackages q env ↔
        m ∈ env.packages.map (fun p => p.2) ∧
          (lowerIncludes m.name q = true ∨
           lowerIncludes m.description q = true ∨
           ∃ k ∈ m.keywords, lowerIncludes k q = true)) ∧
    (∀ env : Store, handleSearchPackages "" env = env.packages.map (fun p => p.2)) ∧
    handleSearchPackages "nomatch-xyz" sampleStore = [] := by
  refine ⟨?_, ?_, by decide⟩
  · intro env q m
    unfold handleSearchPackages
    rw [List.mem_filter]
    refine and_congr Iff.rfl ?_
    unfold matchesQuery
    simp only [Bool.or_eq_true, List.any_eq_true, decide_eq_true_eq]
    exact or_assoc
  · intro env
    unfold handleSearchPackages
    rw [List.filter_eq_self]
    intro m _
    unfold matchesQuery lowerIncludes
    have h : ("" : String).toList.map Char.toLower = [] := rfl
    rw [h, listIncludes_nil]
    simp

/-! ### Claim C6 -/

/-- Claim C6: downloading a yanked version answers `410 Gone` (never
`404`); a successful yank answers `200` and the stored record still lists
the version, now flagged `yanked = true`; and the "latest" resolution
used by listings never selects a yanked version. -/
theorem yanked_version_handling :
    (∀ (env : Store) (nm ver : String) (m : PackageMetadata)
       (vi : PackageVersion),
      kvGet env.packages ("pkg:" ++ nm) = some m →
      m.versions.find? (fun v => v.version = ver) = some vi →
      vi.yanked = true →
      handleDownloadPackage nm ver env = ⟨410⟩) ∧
    (∀ (nm ver : String) (auth : Option String) (tok now : String) (u : User)
       (env : Store) (m : PackageMetadata) (vi : PackageVersion),
      bearerToken auth = some tok →
      verifyToken tok now env = some u →
      kvGet env.packages ("pkg:" ++ nm) = some m →
      m.versions.find? (fun v => v.version = ver) = some vi →
      (u.id = "admin" ∨ u.packages.contains nm = true) →
      (handleYankVersion nm ver true auth now env).1 = ⟨200⟩ ∧
      kvGet (handleYankVersion nm ver true auth now env).2.packages
          ("pkg:" ++ nm) =
        some { m with versions := setYankedFirst ver true m.versions,
                      updated_at := now } ∧
      (setYankedFirst ver true m.versions).find? (fun v => v.version = ver) =
        some { vi with yanked := true }) ∧
    (∀ (m : PackageMetadata) (v : PackageVersion),
      latestOf m = some v → v.yanked = false) ∧
    (∀ (m : PackageMetadata) (v : PackageVersion),
      v ∈ m.versions → v.yanked = true → latestOf m ≠ some v) := by
  refine ⟨?_, ?_, ?_, ?_⟩
  · intro env nm ver m vi hm hfind hy
    unfold handleDownloadPackage
    simp [hm, hfind, hy]
  · intro nm ver auth tok now u env m vi htok hu hm hfind hown
    have hsucc := handleYankVersion_success true htok hu hm hfind hown
    rw [hsucc]
    exact ⟨rfl, kvGet_kvPut_self _ _ _, find?_setYankedFirst hfind⟩
  · intro m v hfind
    have h := List.find?_some hfind
    simpa using h
  · intro m v _ hy hlatest
    have h := List.find?_some hlatest
    rw [hy] at h
    simp at h

/-- Claim C6, witness: the three statements applied at the sample stores
(`foo@1.0.0` yanked for the download and latest parts, Alice yanking her
own `foo@1.0.0` for the yank part). -/
theorem yanked_version_handling_witness :
    handleDownloadPackage "foo" "1.0.0" yankedStore = ⟨410⟩ ∧
    (handleYankVersion "foo" "1.0.0" true (some "Bearer tokA") "T5"
        sampleStore).1 = ⟨200⟩ ∧
    latestOf { fooMeta with versions := [{ fooV1 with yanked := true }] } ≠
      some { fooV1 with yanked := true } := by
  refine ⟨?_, ?_, ?_⟩
  · exact yanked_version_handling.1 yankedStore "foo" "1.0.0"
      { fooMeta with versions := [{ fooV1 with yanked := true }] }
      { fooV1 with yanked := true } (by decide) (by decide) (by decide)
  · exact (yanked_version_handling.2.1 "foo" "1.0.0" (some "Bearer tokA")
      "tokA" "T5" aliceUser sampleStore fooMeta fooV1 (by decide) (by decide)
      (by decide) (by decide) (by decide)).1
  · exact yanked_version_handling.2.2.2
      { fooMeta with versions := [{ fooV1 with yanked := true }] }
      { fooV1 with yanked := true } (by decide) (by decide)

/-! ### Claim C7 -/

/-- Claim C7, counterexample: unyanking `foo@1.0.0` (owner Alice, time
`"T9"`) succeeds, but the stored package record does not merely flip the
`yanked` flag: its `updated_at` changes from `"T1"` to `"T9"`, so a field
other than `yanked` changes. -/
theorem unyank_updated_at_counterexample :
    ((kvGet (handleYankVersion "foo" "1.0.0" false (some "Bearer tokA") "T9"
        yankedStore).2.packages "pkg:foo").map
      (fun m => m.updated_at)) = some "T9" ∧
    ((kvGet yankedStore.packages "pkg:foo").map (fun m => m.updated_at)) =
      some "T1" ∧
    (handleYankVersion "foo" "1.0.0" false (some "Bearer tokA") "T9"
        yankedStore).1 = ⟨200⟩ ∧
    ¬ (kvGet (handleYankVersion "foo" "1.0.0" false (some "Bearer tokA") "T9"
        yankedStore).2.packages "pkg:foo" =
      some { fooMeta with versions := [fooV1] }) := by
  decide

/-- Claim C7 (amended): a successful unyank answers `200`, sets the
matching version record's `yanked` to `false`, preserves every other
field of every version record, preserves every other field of the package
record except `updated_at` (which is refreshed to the operation time),
and touches no other part of the store. -/
theorem unyank_frame (nm ver : String) (auth : Option String)
    (tok now : String) (u : User) (env : Store) (m : PackageMetadata)
    (vi : PackageVersion)
    (htok : bearerToken auth = some tok)
    (hu : verifyToken tok now env = some u)
    (hm : kvGet env.packages ("pkg:" ++ nm) = some m)
    (hfind : m.versions.find? (fun v => v.version = ver) = some vi)
    (hown : u.id = "admin" ∨ u.packages.contains nm = true) :
    (handleYankVersion nm ver false auth now env).1 = ⟨200⟩ ∧
    kvGet (handleYankVersion nm ver false auth now env).2.packages
        ("pkg:" ++ nm) =
      some { m with versions := setYankedFirst ver false m.versions,
                    updated_at := now } ∧
    (setYankedFirst ver false m.versions).find? (fun v => v.version = ver) =
      some { vi with yanked := false } ∧
    List.Forall₂ (fun v v' =>
      v'.version = v.version ∧ v'.published_at = v.published_at ∧
      v'.checksum = v.checksum ∧ v'.size = v.size ∧
      v'.signature = v.signature ∧
      v'.publisher_fingerprint = v.publisher_fingerprint ∧
      (¬ v.version = ver → v' = v))
      m.versions (setYankedFirst ver false m.versions) ∧
    (handleYankVersion nm ver false auth now env).2.users = env.users ∧
    (handleYankVersion nm ver false auth now env).2.tokens = env.tokens ∧
    (handleYankVersion nm ver false auth now env).2.tarballs = env.tarballs := by
  have hsucc := handleYankVersion_success false htok hu hm hfind hown
  rw [hsucc]
  exact ⟨rfl, kvGet_kvPut_self _ _ _, find?_setYankedFirst hfind,
    setYankedFirst_frame ver false m.versions, rfl, rfl, rfl⟩

/-- Claim C7 amended, witness: Alice unyanks `foo@1.0.0` at time `"T9"`;
the status is `200` and the target version re-reads as unyanked. -/
theorem unyank_frame_witness :
    (handleYankVersion "foo" "1.0.0" false (some "Bearer tokA") "T9"
        yankedStore).1 = ⟨200⟩ ∧
    (setYankedFirst "1.0.0" false
        [{ fooV1 with yanked := true }]).find?
        (fun v => v.version = "1.0.0") = some fooV1 := by
  have h := unyank_frame "foo" "1.0.0" (some "Bearer tokA") "tokA" "T9"
    aliceUser yankedStore
    { fooMeta with versions := [{ fooV1 with yanked := true }] }
    { fooV1 with yanked := true }
    (by decide) (by decide) (by decide) (by decide) (by decide)
  exact ⟨h.1, h.2.2.1⟩

/-! ### Claim C10 -/

/-- Claim C10: a publish that creates a new package stores a record whose
`license` is the fixed string `"MIT"`, whose `keywords` are empty, and
whose `authors` are exactly the authenticated publisher's display name;
only the description is taken from the request (the client cannot supply
any of the other fields — the request carries no such inputs). -/
theorem publish_creation_defaults (hash : List Nat → String)
    (now : String) (req : PublishReq) (env : Store) (tok nm : String)
    (u : User)
    (hname : req.nameHeader = some nm)
    (htok : bearerToken req.authHeader = some tok)
    (hu : verifyToken tok now env = some u)
    (hbody : req.body.length ≠ 0)
    (hvn : validName nm = true)
    (hvv : validVersion (req.versionHeader.getD "") = true)
    (habsent : kvGet env.packages ("pkg:" ++ nm) = none) :
    (handlePublishPackage hash now req env).1 = ⟨201⟩ ∧
    ((kvGet (handlePublishPackage hash now req env).2.packages
        ("pkg:" ++ nm)).map (fun m =>
      (m.license, m.keywords, m.authors, m.description, m.created_at,
       m.downloads))) =
      some ("MIT", [], [u.name],
        (orUndefined req.descriptionHeader).getD "", now, 0) := by
  have hf1 : headerFalsy req.nameHeader = false := by
    rw [hname]
    simpa [headerFalsy] using validName_ne_empty hvn
  have hf2 : headerFalsy req.versionHeader = false := by
    cases hv : req.versionHeader with
    | none =>
        rw [hv] at hvv
        exact absurd hvv (by decide)
    | some s =>
        rw [hv] at hvv
        simp only [Option.getD_some] at hvv
        simpa [headerFalsy] using validVersion_ne_empty hvv
  have hread : publishRead hash now req env =
      .ok { nm := req.nameHeader.getD "", ver := req.versionHeader.getD "",
            body := req.body, checksum := hash req.body, user := u,
            meta := insertVersion now (mkNewVersion hash now req)
              (freshMetadata (req.nameHeader.getD "")
                ((orUndefined req.descriptionHeader).getD "") u.name now),
            published_at := now } := by
    unfold publishRead
    simp only [htok, hu, if_neg hbody, hf1, hf2, Bool.or_self,
      Bool.false_eq_true, if_false]
    rw [hname]
    simp only [Option.getD_some, hvn, hvv, Bool.not_true,
      Bool.false_eq_true, if_false]
    rw [habsent]
    simp only [applyPublish]
  constructor
  · unfold handlePublishPackage
    rw [hread, publishWrite_status]
  · unfold handlePublishPackage
    rw [hread]
    show ((kvGet (publishWrite _ env).2.packages ("pkg:" ++ nm)).map _) = _
    rw [publishWrite_packages]
    have hkey : "pkg:" ++ nm = "pkg:" ++ req.nameHeader.getD "" := by
      simp [hname]
    rw [hkey, kvGet_kvPut_self]
    rfl

/-- Claim C10, witness: Alice publishes a fresh package `newpkg@1.0.0`
with a client-supplied description; the stored record carries exactly the
fixed defaults and her display name. -/
theorem publish_creation_defaults_witness :
    (handlePublishPackage demoHash "T4"
      { authHeader := some "Bearer tokA", body := [7],
        nameHeader := some "newpkg", versionHeader := some "1.0.0",
        descriptionHeader := some "fresh", signatureHeader := none,
        fingerprintHeader := none } sampleStore).1 = ⟨201⟩ ∧
    ((kvGet (handlePublishPackage demoHash "T4"
      { authHeader := some "Bearer tokA", body := [7],
        nameHeader := some "newpkg", versionHeader := some "1.0.0",
        descriptionHeader := some "fresh", signatureHeader := none,
        fingerprintHeader := none } sampleStore).2.packages
        ("pkg:" ++ "newpkg")).map (fun m =>
      (m.license, m.keywords, m.authors, m.description, m.created_at,
       m.downloads))) =
      some ("MIT", [], ["Alice"], "fresh", "T4", 0) := by
  have h := publish_creation_defaults demoHash "T4"
    { authHeader := some "Bearer tokA", body := [7],
      nameHeader := some "newpkg", versionHeader := some "1.0.0",
      descriptionHeader := some "fresh", signatureHeader := none,
      fingerprintHeader := none } sampleStore "tokA" "newpkg" aliceUser
    (by decide) (by decide) (by decide) (by decide) (by decide) (by decide)
    (by decide)
  exact h

/-! ### Claim C1 -/

/-- Claim C1: the spec requires a publish into an existing package by an
authenticated caller who neither owns it nor is the admin to fail
`Forbidden` (403) before any reservation or write; `handlePublishPackage`
performs no ownership check at all.  Concretely: Bob (owns nothing, not
the admin) publishes `foo@2.0.0` into Alice's package `foo`; the handler
answers `201`, the version list grows to two, and Bob's tarball is
written — no `403` is ever produced. -/
theorem publish_missing_ownership_check :
    verifyToken "tokB" "T2" sampleStore = some bobUser ∧
    bobUser.id ≠ "admin" ∧
    bobUser.packages.contains "foo" = false ∧
    (kvGet sampleStore.packages "pkg:foo").isSome = true ∧
    (handlePublishPackage demoHash "T2" bobReq sampleStore).1 = ⟨201⟩ ∧
    ((kvGet (handlePublishPackage demoHash "T2" bobReq sampleStore).2.packages
        "pkg:foo").map (fun m => m.versions.length)) = some 2 ∧
    (kvGet (handlePublishPackage demoHash "T2" bobReq sampleStore).2.tarballs
        "foo/2.0.0.tar.gz").isSome = true := by
  decide

/-! ### Claim C3 -/

/-- Claim C3: after a successful publish of some `(name, version)`, a
second authenticated publish of the same `(name, version)` (any body,
any description) answers `409 Conflict` and leaves the store — the
stored version record and the stored blob included — exactly as the
first publish left it. -/
theorem republish_conflict (hash : List Nat → String)
    (now1 now2 : String) (req1 req2 : PublishReq) (env : Store)
    (tok2 : String) (u2 : User)
    (h1 : (handlePublishPackage hash now1 req1 env).1 = ⟨201⟩)
    (hn : req2.nameHeader = req1.nameHeader)
    (hv : req2.versionHeader = req1.versionHeader)
    (htok : bearerToken req2.authHeader = some tok2)
    (hu : verifyToken tok2 now2 (handlePublishPackage hash now1 req1 env).2 =
      some u2)
    (hbody : req2.body.length ≠ 0) :
    handlePublishPackage hash now2 req2
        (handlePublishPackage hash now1 req1 env).2 =
      (⟨409⟩, (handlePublishPackage hash now1 req1 env).2) := by
  obtain ⟨p, hp, heq⟩ := publish_201 h1
  obtain ⟨hnm, hver, hvn, hvv, hfn, hfv, hupd, v, hvmem, hvver⟩ :=
    publishRead_ok hp
  have henvpk : (handlePublishPackage hash now1 req1 env).2.packages =
      kvPut env.packages ("pkg:" ++ p.nm) p.meta := by
    rw [heq]
    exact publishWrite_packages p env
  have hgn : req2.nameHeader.getD "" = p.nm := by rw [hn, hnm]
  have hgv : req2.versionHeader.getD "" = p.ver := by rw [hv, hver]
  have hread2 : publishRead hash now2 req2
      (handlePublishPackage hash now1 req1 env).2 = .error ⟨409⟩ := by
    unfold publishRead
    simp only [htok, hu]
    rw [if_neg hbody]
    have hfn2 : headerFalsy req2.nameHeader = false := by rw [hn]; exact hfn
    have hfv2 : headerFalsy req2.versionHeader = false := by rw [hv]; exact hfv
    simp only [hfn2, hfv2, Bool.or_self, Bool.false_eq_true, if_false]
    rw [hgn, hgv]
    simp only [hvn, hvv, Bool.not_true, Bool.false_eq_true, if_false]
    rw [henvpk, kvGet_kvPut_self,
      applyPublish_some_conflict ⟨v, hvmem, by
        show v.version = (mkNewVersion hash now2 req2).version
        show v.version = req2.versionHeader.getD ""
        rw [hgv, hvver]⟩]
  rw [heq] at hread2 ⊢
  unfold handlePublishPackage
  rw [hread2]

/-- Claim C3, witness: Alice publishes `foo@1.1.0` at `T2`, then
republishes the same version at `T3`; the second call answers `409` with
the store unchanged. -/
theorem republish_conflict_witness :
    handlePublishPackage demoHash "T3" raceReq2
        (handlePublishPackage demoHash "T2" raceReq1 sampleStore).2 =
      (⟨409⟩, (handlePublishPackage demoHash "T2" raceReq1 sampleStore).2) := by
  exact republish_conflict demoHash "T2" "T3" raceReq1 raceReq2 sampleStore
    "tokA" aliceUser (by decide) (by decide) (by decide) (by decide)
    (by decide) (by decide)

/-! ### Claim C2 -/

/-- Claim C2, counterexample: two publish requests for the same
`(foo, 1.1.0)` run concurrently under the interleaving in which both KV
reads precede both writes (possible at every `await` boundary — Cloudflare
KV has no transaction and the handler performs a plain read followed by a
plain write).  Both requests answer `201`; neither receives `Conflict`;
the final record holds the second request's checksum (`h2`), the first
write having been silently overwritten, and only 2 versions remain. -/
theorem race_publish_counterexample :
    raceReq1.nameHeader = raceReq2.nameHeader ∧
    raceReq1.versionHeader = raceReq2.versionHeader ∧
    ((raceSchedule demoHash "T2" "T3" raceReq1 raceReq2 sampleStore).map
      (fun t => (t.1, t.2.1))) = some (⟨201⟩, ⟨201⟩) ∧
    ((raceSchedule demoHash "T2" "T3" raceReq1 raceReq2 sampleStore).map
      (fun t => (kvGet t.2.2.packages "pkg:foo").map
        (fun m => (m.versions.length,
          (m.versions.find? (fun v => v.version = "1.1.0")).map
            (fun v => v.checksum))))) = some (some (2, some "h2")) := by
  decide

/-- Claim C2 (amended): the duplicate-version check and the insert are
not atomic.  When both requests are serialized the second does receive
`Conflict` (see the republish theorem), but whenever both read phases
pass — in particular when both observe the version as absent — both
requests answer `201` and the second metadata write overwrites the
first. -/
theorem race_publish_amended (hash : List Nat → String)
    (now1 now2 : String) (r1 r2 : PublishReq) (env : Store)
    (p1 p2 : PendingPublish)
    (h1 : publishRead hash now1 r1 env = .ok p1)
    (h2 : publishRead hash now2 r2 env = .ok p2) :
    raceSchedule hash now1 now2 r1 r2 env =
      some (⟨201⟩, ⟨201⟩, (publishWrite p2 (publishWrite p1 env).2).2) ∧
    kvGet (publishWrite p2 (publishWrite p1 env).2).2.packages
      ("pkg:" ++ p2.nm) = some p2.meta := by
  constructor
  · unfold raceSchedule
    simp only [h1, h2]
    rw [publishWrite_status, publishWrite_status]
  · rw [publishWrite_packages, kvGet_kvPut_self]

/-- Claim C2 amended, witness: the racing pair on the sample store, with
both pending read states given explicitly. -/
theorem race_publish_amended_witness :
    raceSchedule demoHash "T2" "T3" raceReq1 raceReq2 sampleStore =
      some (⟨201⟩, ⟨201⟩,
        (publishWrite racePending2 (publishWrite racePending1
          sampleStore).2).2) ∧
    kvGet (publishWrite racePending2 (publishWrite racePending1
        sampleStore).2).2.packages ("pkg:" ++ racePending1.nm) =
      some racePending2.meta := by
  have h := race_publish_amended demoHash "T2" "T3" raceReq1 raceReq2
    sampleStore racePending1 racePending2 (by rfl) (by rfl)
  exact ⟨h.1, h.2⟩

/-! ### Claim C8 -/

theorem insertVersion_versions_perm (now : String) (nv : PackageVersion)
    (m : PackageMetadata) :
    List.Perm (insertVersion now nv m).versions (nv :: m.versions) := by
  show List.Perm (sortVersions (m.versions ++ [nv])) _
  exact (sortVersions_perm _).trans (List.perm_append_singleton _ _)

/-- Folding the handler's per-publish metadata mutation over a list of
distinct new versions succeeds and accumulates all of them, keeping the
list sorted and stamping `updated_at` with each insert's time. -/
theorem runPublishes_ok (nm desc author : String) :
    ∀ (inputs : List (String × PackageVersion)) (m0 : PackageMetadata),
      (inputs.map (fun q => q.2.version)).Nodup →
      (∀ q ∈ inputs, q.2.version ∉ m0.versions.map (fun v => v.version)) →
      ∃ m, runPublishes nm desc author inputs (some m0) = .ok (some m) ∧
        List.Perm (m.versions.map (fun v => v.version))
          (m0.versions.map (fun v => v.version) ++
            inputs.map (fun q => q.2.version)) ∧
        (inputs = [] → m = m0) ∧
        (inputs ≠ [] → m.versions.Pairwise versionDesc) ∧
        m.updated_at = ((inputs.map Prod.fst).getLast?).getD m0.updated_at
  | [], m0, _, _ =>
      ⟨m0, rfl, by simp, fun _ => rfl, fun h => absurd rfl h, by simp⟩
  | (now, nv) :: rest, m0, hnd, hnotin => by
      have hnotin0 : ∀ v ∈ m0.versions, v.version ≠ nv.version := by
        intro v hv he
        exact hnotin (now, nv) (by simp) (he ▸ List.mem_map_of_mem _ hv)
      have hstep : applyPublish now nm desc author nv (some m0) =
          .ok (insertVersion now nv m0) := applyPublish_some_ok hnotin0
      have hrun : runPublishes nm desc author ((now, nv) :: rest) (some m0) =
          runPublishes nm desc author rest (some (insertVersion now nv m0)) := by
        show (match applyPublish now nm desc author nv (some m0) with
              | Except.error r => Except.error r
              | Except.ok m => runPublishes nm desc author rest (some m)) = _
        rw [hstep]
      have hperm1 : List.Perm
          ((insertVersion now nv m0).versions.map (fun v => v.version))
          (nv.version :: m0.versions.map (fun v => v.version)) :=
        (insertVersion_versions_perm now nv m0).map (fun v => v.version)
      have hndc : nv.version ∉ rest.map (fun q => q.2.version) ∧
          (rest.map (fun q => q.2.version)).Nodup := by
        rw [List.map_cons, List.nodup_cons] at hnd
        exact hnd
      have hnotin' : ∀ q ∈ rest, q.2.version ∉
          (insertVersion now nv m0).versions.map (fun v => v.version) := by
        intro q hq hmem
        rw [hperm1.mem_iff] at hmem
        rcases List.mem_cons.mp hmem with he | hmem
        · exact hndc.1 (he ▸ List.mem_map_of_mem (fun q => q.2.version) hq)
        · exact hnotin q (by simp [hq]) hmem
      obtain ⟨m, hm, hperm, hnil, hsort, hupd⟩ :=
        runPublishes_ok nm desc author rest (insertVersion now nv m0)
          hndc.2 hnotin'
      refine ⟨m, by rw [hrun]; exact hm, ?_, ?_, ?_, ?_⟩
      · refine hperm.trans ?_
        refine (hperm1.append_right _).trans ?_
        show List.Perm (nv.version :: (_ ++ _)) _
        exact List.perm_middle.symm
      · intro h
        simp at h
      · intro _
        cases hrest : rest with
        | nil =>
            rw [hrest] at hnil
            rw [hnil rfl]
            exact sortVersions_sorted _
        | cons a t =>
            rw [hrest] at hsort
            exact hsort (by simp)
      · cases hrest : rest with
        | nil =>
            rw [hrest] at hupd
            simpa [insertVersion] using hupd
        | cons a t =>
            rw [hrest] at hupd
            rw [hupd]
            have hne : ((a :: t).map Prod.fst) ≠ [] := by simp
            obtain ⟨x, hx⟩ := Option.isSome_iff_exists.mp
              (List.getLast?_isSome.mpr hne)
            have hyy : (((now, nv) :: a :: t).map Prod.fst).getLast? = some x := by
              have hmm : ((now, nv) :: a :: t).map Prod.fst
                  = (now, nv).1 :: a.1 :: t.map Prod.fst := by
                rw [List.map_cons, List.map_cons]
              rw [hmm, List.getLast?_cons_cons]
              have hmm2 : a.1 :: t.map Prod.fst = (a :: t).map Prod.fst :=
                (List.map_cons _ _ _).symm
              rw [hmm2]
              exact hx
            rw [hx, hyy]
            rfl

/-- Claim C8: starting from a nonexistent package, N successive publishes
of N pairwise distinct versions all succeed; the resulting record's
version list has length N and is sorted descending by `compareVersions`;
its `updated_at` is the timestamp of the last insert; and each single
insert re-sorts the list and stamps `updated_at`. -/
theorem n_publishes_sorted (nm desc author : String)
    (inputs : List (String × PackageVersion)) (hne : inputs ≠ [])
    (hnd : (inputs.map (fun q => q.2.version)).Nodup) :
    ∃ m, runPublishes nm desc author inputs none = .ok (some m) ∧
      m.versions.length = inputs.length ∧
      m.versions.Pairwise versionDesc ∧
      m.updated_at = ((inputs.map Prod.fst).getLast?).getD "" ∧
      (∀ (now : String) (nv : PackageVersion) (mm : PackageMetadata),
        (insertVersion now nv mm).updated_at = now ∧
        (insertVersion now nv mm).versions.Pairwise versionDesc ∧
        List.Perm (insertVersion now nv mm).versions (nv :: mm.versions)) := by
  obtain ⟨⟨now, nv⟩, rest, rfl⟩ := List.exists_cons_of_ne_nil hne
  have hrun : runPublishes nm desc author ((now, nv) :: rest) none =
      runPublishes nm desc author rest
        (some (insertVersion now nv (freshMetadata nm desc author now))) := by
    show (match applyPublish now nm desc author nv none with
          | Except.error r => Except.error r
          | Except.ok m => runPublishes nm desc author rest (some m)) = _
    rw [show applyPublish now nm desc author nv none =
      Except.ok (insertVersion now nv (freshMetadata nm desc author now))
      from rfl]
  have hndc : nv.version ∉ rest.map (fun q => q.2.version) ∧
      (rest.map (fun q => q.2.version)).Nodup := by
    rw [List.map_cons, List.nodup_cons] at hnd
    exact hnd
  have hperm1 : List.Perm
      ((insertVersion now nv (freshMetadata nm desc author now)).versions.map
        (fun v => v.version)) [nv.version] := by
    have := (insertVersion_versions_perm now nv
      (freshMetadata nm desc author now)).map (fun v => v.version)
    simpa [freshMetadata] using this
  have hnotin' : ∀ q ∈ rest, q.2.version ∉
      (insertVersion now nv (freshMetadata nm desc author now)).versions.map
        (fun v => v.version) := by
    intro q hq hmem
    rw [hperm1.mem_iff] at hmem
    rcases List.mem_cons.mp hmem with he | hmem
    · exact hndc.1 (he ▸ List.mem_map_of_mem (fun q => q.2.version) hq)
    · simp at hmem
  obtain ⟨m, hm, hperm, hnil, hsort, hupd⟩ :=
    runPublishes_ok nm desc author rest
      (insertVersion now nv (freshMetadata nm desc author now))
      hndc.2 hnotin'
  refine ⟨m, by rw [hrun]; exact hm, ?_, ?_, ?_, ?_⟩
  · have hlen := hperm.length_eq
    rw [List.length_map] at hlen
    rw [hlen]
    have hlen1 := hperm1.length_eq
    rw [List.length_map] at hlen1
    simp only [List.length_append, List.length_map, hlen1, List.length_cons,
      List.length_nil]
    omega
  · cases hrest : rest with
    | nil =>
        rw [hrest] at hnil
        rw [hnil rfl]
        exact sortVersions_sorted _
    | cons a t =>
        rw [hrest] at hsort
        exact hsort (by simp)
  · cases hrest : rest with
    | nil =>
        rw [hrest] at hupd
        simpa [insertVersion] using hupd
    | cons a t =>
        rw [hrest] at hupd
        rw [hupd]
        have hne2 : ((a :: t).map Prod.fst) ≠ [] := by simp
        obtain ⟨x, hx⟩ := Option.isSome_iff_exists.mp
          (List.getLast?_isSome.mpr hne2)
        have hyy : (((now, nv) :: a :: t).map Prod.fst).getLast? = some x := by
          have hmm : ((now, nv) :: a :: t).map Prod.fst
              = (now, nv).1 :: a.1 :: t.map Prod.fst := by
            rw [List.map_cons, List.map_cons]
          rw [hmm, List.getLast?_cons_cons]
          have hmm2 : a.1 :: t.map Prod.fst = (a :: t).map Prod.fst :=
            (List.map_cons _ _ _).symm
          rw [hmm2]
          exact hx
        rw [hx, hyy]
        rfl
  · intro now' nv' mm
    exact ⟨rfl, sortVersions_sorted _, insertVersion_versions_perm now' nv' mm⟩

/-- Claim C8, witness: three publishes of `1.0.0`, `2.0.0`, `1.5.0`; the
final list has three versions sorted descending (`2.0.0`, `1.5.0`,
`1.0.0`) and `updated_at = "T3"`. -/
theorem n_publishes_sorted_witness :
    ((runPublishes "foo" "" "Alice"
      [("T1", { version := "1.0.0", published_at := "T1", yanked := false,
                checksum := "c1", size := 1, signature := none,
                publisher_fingerprint := none }),
       ("T2", { version := "2.0.0", published_at := "T2", yanked := false,
                checksum := "c2", size := 1, signature := none,
                publisher_fingerprint := none }),
       ("T3", { version := "1.5.0", published_at := "T3", yanked := false,
                checksum := "c3", size := 1, signature := none,
                publisher_fingerprint := none })] none).map
      (fun o => o.map (fun m => (m.versions.length, m.updated_at)))) =
      .ok (some (3, "T3")) := by
  obtain ⟨m, hrun, hlen, hsort, hupd, _⟩ := n_publishes_sorted "foo" "" "Alice"
    [("T1", { version := "1.0.0", published_at := "T1", yanked := false,
              checksum := "c1", size := 1, signature := none,
              publisher_fingerprint := none }),
     ("T2", { version := "2.0.0", published_at := "T2", yanked := false,
              checksum := "c2", size := 1, signature := none,
              publisher_fingerprint := none }),
     ("T3", { version := "1.5.0", published_at := "T3", yanked := false,
              checksum := "c3", size := 1, signature := none,
              publisher_fingerprint := none })] (by simp) (by decide)
  rw [hrun]
  show Except.ok (some (m.versions.length, m.updated_at)) = _
  have h1 : m.versions.length = 3 := by simpa using hlen
  have h2 : m.updated_at = "T3" := by simpa using hupd
  rw [h1, h2]

end Registry
